import Mathlib

/-!
Verification development for the document-ingestion pipeline
(`DocumentProcessor` orchestrator, Pinecone adapter) of the
repograph platform.

Modelling conventions:
* Go strings are byte slices; `len` is the byte length.  We model them as
  `List Char`, one `Char` per byte, so `List.length` matches Go `len`.
* Go `text[s:e]` is modelled by `goSlice`.
* The `for start < len(text)` loop of `chunkText` is modelled by a
  fuel-indexed recursion `chunkLoop`; `none` models non-termination of the
  loop (which in Go happens only when `overlap >= chunkSize`, a
  configuration that `validateConfig` rejects upstream).
* External collaborators (Azure OpenAI, Google Vision, Pinecone HTTP calls,
  the OS filesystem) are modelled by explicit environments recording the
  outcome of each call, since their network behaviour is outside the
  repository.
-/

abbrev Str := List Char

/-- Go slice `text[s:e]` (with `s <= e <= len text` in all uses below). -/
def goSlice (text : Str) (s e : Nat) : Str :=
  (text.drop s).take (e - s)

/-- The loop body of `chunkText` (orchestrator/document_processor.go):
`for start < len(text) { end := min(start+chunkSize, len(text));
chunks = append(chunks, text[start:end]); start += chunkSize - overlap }`,
with explicit fuel; `none` models loop non-termination. -/
def chunkLoop (text : Str) (chunkSize overlap : Nat) : Nat → Nat → Option (List Str)
  | 0, _ => none
  | fuel + 1, start =>
    if start < text.length then
      match chunkLoop text chunkSize overlap fuel (start + (chunkSize - overlap)) with
      | none => none
      | some rest =>
          some (goSlice text start (min (start + chunkSize) text.length) :: rest)
    else
      some []

/-- `chunkText` from the orchestrator: if `len(text) <= chunkSize` return the
whole text as the single chunk, otherwise run the sliding-window loop.
The fuel `text.length + 1` is shown sufficient whenever
`overlap < chunkSize` (claim C10). -/
def chunkText (text : Str) (chunkSize overlap : Nat) : Option (List Str) :=
  if text.length ≤ chunkSize then some [text]
  else chunkLoop text chunkSize overlap (text.length + 1) 0

/-- Specification-side list of window start offsets: `start`, `start+stride`,
… while the start is `< len` (empty if `stride = 0`). -/
def strideStarts (len stride start : Nat) : List Nat :=
  if h : 0 < stride ∧ start < len then
    start :: strideStarts len stride (start + stride)
  else
    []
termination_by len - start
decreasing_by omega

/-- Specification-side window list for `chunkText`: the `[start, end)`
half-open intervals of the produced chunks. -/
def chunkWindows (len chunkSize overlap : Nat) : List (Nat × Nat) :=
  if len ≤ chunkSize then [(0, len)]
  else
    (strideStarts len (chunkSize - overlap) 0).map
      (fun s => (s, min (s + chunkSize) len))

/-- Length of the intersection of two half-open windows. -/
def windowOverlap (a b : Nat × Nat) : Nat :=
  min a.2 b.2 - max a.1 b.1

/-- Embedding vectors: the numeric values are opaque to the pipeline logic. -/
abbrev Emb := List Int

/-- Per-file collaborator calls issued by `processFile`, in invocation order:
hash read, Pinecone existence query, content extraction, Vision analysis,
summary generation, one embedding call per chunk index, Pinecone upsert. -/
inductive Call where
  | hash
  | checkExists
  | extract
  | vision
  | summarize
  | embed (i : Nat)
  | upsert
deriving DecidableEq, Repr

/-- The configuration fields of `config.App` read by `processFile`. -/
structure Cfg where
  skipExisting : Bool
  chunkSize : Nat
  overlap : Nat

/-- Environment recording the outcome of every external-collaborator call a
single `processFile` invocation can make (filesystem read for the hash,
Pinecone existence check, extractor, Vision client, Azure summary, Azure
embedding per chunk index, Pinecone upsert). -/
structure FileEnv where
  hashRes : Except Str Str
  existsRes : Except Str Bool
  extractRes : Except Str Str
  isImage : Bool
  hasVision : Bool
  visionRes : Except Str Str
  summaryRes : Except Str Str
  embedRes : Nat → Except Str Emb
  upsertRes : Except Str Unit

/-- Result of one `processFile` call: the returned error (`none` = nil), the
ordered list of collaborator calls made, and the vector set handed to
`UpsertVectors` (chunk index paired with its embedding; `[]` if no upsert
was issued). -/
structure FileResult where
  err : Option Str
  trace : List Call
  stored : List (Nat × Emb)
deriving DecidableEq, Repr

/-- Visual content appended by the Vision stage: invoked only for image files
when a Vision client is configured; any failure is logged and yields empty
visual content. -/
def visualOf (env : FileEnv) : Str :=
  if env.isImage && env.hasVision then
    match env.visionRes with
    | .ok v => v
    | .error _ => []
  else []

def visionTrace (env : FileEnv) : List Call :=
  if env.isImage && env.hasVision then [Call.vision] else []

/-- `combinedContent := content; if visualContent != "" { combinedContent +=
"\n\n" + visualContent }`. -/
def combineContent (content visual : Str) : Str :=
  if visual = [] then content else content ++ '\n' :: '\n' :: visual

/-- The embedding loop of `processFile`: one `GenerateEmbedding` call per
chunk; a failed call is logged and that chunk is dropped (`continue`), a
successful call appends the vector. The call outcome is indexed by the
chunk position. -/
def buildVectors (embedRes : Nat → Except Str Emb) (n : Nat) : List (Nat × Emb) :=
  (List.range n).foldl
    (fun acc i =>
      match embedRes i with
      | .error _ => acc
      | .ok v => acc ++ [(i, v)])
    []

/-- The tail of `processFile` after the hash and dedup checks: extract,
optional vision, summary (placeholder on failure), chunking, per-chunk
embedding, and the conditional Pinecone upsert. `t` is the trace of the calls
already made; `none` models non-termination of `chunkText`. -/
def processAfterDedup (cfg : Cfg) (env : FileEnv) (t : List Call) : Option FileResult :=
  match env.extractRes with
  | .error e =>
      some ⟨some (("failed to extract content: ").toList ++ e), t ++ [Call.extract], []⟩
  | .ok content =>
      if content = [] then
        some ⟨none, t ++ [Call.extract], []⟩
      else
        match chunkText (combineContent content (visualOf env)) cfg.chunkSize cfg.overlap with
        | none => none
        | some chunks =>
            let vectors := buildVectors env.embedRes chunks.length
            let tr := t ++ [Call.extract] ++ visionTrace env ++ [Call.summarize] ++
              (List.range chunks.length).map Call.embed
            if vectors = [] then
              some ⟨none, tr, []⟩
            else
              match env.upsertRes with
              | .error e =>
                  some ⟨some (("failed to store in Pinecone: ").toList ++ e),
                    tr ++ [Call.upsert], vectors⟩
              | .ok _ => some ⟨none, tr ++ [Call.upsert], vectors⟩

/-- `processFile` from the orchestrator: hash, dedup check (skip signalled by
the error message `"file already indexed"`, an existence-check error is only
logged), then the rest of the pipeline. -/
def processFile (cfg : Cfg) (env : FileEnv) : Option FileResult :=
  match env.hashRes with
  | .error e =>
      some ⟨some (("failed to calculate hash: ").toList ++ e), [Call.hash], []⟩
  | .ok _ =>
      if cfg.skipExisting then
        match env.existsRes with
        | .ok true =>
            some ⟨some ("file already indexed").toList,
              [Call.hash, Call.checkExists], []⟩
        | .ok false => processAfterDedup cfg env [Call.hash, Call.checkExists]
        | .error _ => processAfterDedup cfg env [Call.hash, Call.checkExists]
      else processAfterDedup cfg env [Call.hash]

/-- `CheckDocumentExists` from the Pinecone adapter: a failing metadata query
is logged as a warning and reported as `(false, nil)` — the error is swallowed
inside the adapter; otherwise existence is `len(matches) > 0`. -/
def CheckDocumentExists {α : Type} (queryRes : Except Str (List α)) : Except Str Bool :=
  match queryRes with
  | .error _ => .ok false
  | .ok ms => .ok (decide (0 < ms.length))

/-- Go `strings.Contains hay needle`. -/
def strContains (hay needle : Str) : Bool :=
  (List.range (hay.length + 1)).any
    (fun i => decide ((hay.drop i).take needle.length = needle))

/-- The run-level counters accumulated by `ProcessDirectory`. -/
structure RunStats where
  processed : Nat
  skipped : Nat
  errored : Nat
deriving DecidableEq, Repr

/-- The per-file accounting of the `ProcessDirectory` loop: nil error counts
as processed; an error whose message contains `"already indexed"` counts as
skipped; any other error counts as errored. -/
def countFile (st : RunStats) (res : Option Str) : RunStats :=
  match res with
  | none => { st with processed := st.processed + 1 }
  | some msg =>
      if strContains msg (("already indexed").toList) then
        { st with skipped := st.skipped + 1 }
      else
        { st with errored := st.errored + 1 }

def runCounters (files : List Str) (runFile : Str → Option Str) : RunStats :=
  files.foldl (fun st f => countFile st (runFile f)) ⟨0, 0, 0⟩

/-- `ProcessDirectory`: abort only if the scan failed, otherwise fold the
per-file outcomes (given by `runFile`) into the run counters and return nil
(the counters are logged; we expose them through `.ok`). -/
def ProcessDirectory (scanRes : List Str × Option Str) (runFile : Str → Option Str) :
    Except Str RunStats :=
  match scanRes.2 with
  | some e => .error (("failed to scan directory: ").toList ++ e)
  | none => .ok (runCounters scanRes.1 runFile)

def cfgSkip : Cfg :=
  ⟨true, 10, 2⟩

def envSkip : FileEnv :=
  ⟨.ok [], .ok true, .ok [], false, false, .ok [], .ok [], fun _ => .ok [], .ok ()⟩

def envExErr : FileEnv :=
  ⟨.ok [], .error ('t' :: []), .ok ('a' :: []), false, false, .ok [], .ok [],
    fun _ => .ok [], .ok ()⟩

def exceptOk (e : Except Str Emb) : Bool :=
  match e with
  | .ok _ => true
  | .error _ => false

def cfgEmb : Cfg :=
  ⟨false, 2, 1⟩

def envEmb : FileEnv :=
  ⟨.ok [], .ok false, .ok ('a' :: 'b' :: 'c' :: []), false, false, .ok [], .ok [],
    fun i => if i = 1 then .error ('x' :: []) else .ok ((1 : Int) :: []), .ok ()⟩

/-- Model of the directory tree visited by `filepath.Walk` in
`scanDirectory`. `unreadable` stands for an entry for which the walk
callback is invoked with a non-nil error (an unopenable root or a failed
`lstat` on a sub-entry). -/
inductive FsNode where
  | file (name : Str)
  | dir (name : Str) (children : List FsNode)
  | unreadable (name : Str) (errMsg : Str)

/-- Go `strings.HasPrefix(name, ".")`. -/
def startsWithDot (name : Str) : Bool :=
  match name with
  | [] => false
  | c :: _ => c = '.'

mutual
/-- The walk callback of `scanDirectory` applied to one tree node: a non-nil
incoming error is returned as-is (aborting the walk), directories and
dot-entries are not appended, other entries are appended to `acc`; for a
directory the walk then descends into its children (also for hidden
directories, since the callback returns plain nil for every directory). -/
def walkNode : FsNode → List Str → List Str × Option Str
  | .file name, acc =>
      (if startsWithDot name then acc else acc ++ [name], none)
  | .unreadable _ msg, acc => (acc, some msg)
  | .dir _ cs, acc => walkList cs acc

def walkList : List FsNode → List Str → List Str × Option Str
  | [], acc => (acc, none)
  | c :: cs, acc =>
      match walkNode c acc with
      | (acc1, none) => walkList cs acc1
      | (acc1, some e) => (acc1, some e)
end

/-- `scanDirectory` from the orchestrator: `filepath.Walk` from the root with
the callback above, returning the accumulated files and the walk error. -/
def scanDirectory (root : FsNode) : List Str × Option Str :=
  walkNode root []

mutual
/-- The non-hidden regular-file names of a tree. -/
def fileNamesN : FsNode → List Str
  | .file name => if startsWithDot name then [] else [name]
  | .unreadable _ _ => []
  | .dir _ cs => fileNamesL cs

def fileNamesL : List FsNode → List Str
  | [] => []
  | c :: cs => fileNamesN c ++ fileNamesL cs
end

mutual
def hasUnreadableN : FsNode → Bool
  | .file _ => false
  | .unreadable _ _ => true
  | .dir _ cs => hasUnreadableL cs

def hasUnreadableL : List FsNode → Bool
  | [] => false
  | c :: cs => hasUnreadableN c || hasUnreadableL cs
end

/-- Lowercase hexadecimal digit for `n < 16`, as produced by Go `%x`. -/
def hexDigit (n : Nat) : Char :=
  if n < 10 then Char.ofNat (48 + n) else Char.ofNat (87 + n)

/-- Go `fmt.Sprintf("%x", bytes)`: two lowercase hex digits per byte. -/
def bytesHex (bs : List Nat) : Str :=
  (bs.map (fun b => [hexDigit (b / 16), hexDigit (b % 16)])).flatten

/-- `calculateFileHash`: open and read the file's full byte content, feed it
through the digest, and return `"sha256:" + hex(digest)`; a read failure is
returned as the error. The SHA-256 computation itself is Go's `crypto/sha256`
(an external library), modelled as the abstract `digest` parameter. -/
def calculateFileHash (digest : List Nat → List Nat)
    (readFile : Str → Except Str (List Nat)) (path : Str) : Except Str Str :=
  match readFile path with
  | .error e => .error e
  | .ok bytes => .ok (("sha256:").toList ++ bytesHex (digest bytes))

/-- The batching loop of `UpsertVectors` (Pinecone adapter): slice off the
next batch of at most 100 vectors, issue one `upsertBatch` HTTP write for it
(outcome given by `call`, indexed by batch number), return the wrapped error
immediately on failure, otherwise continue with the rest. The second
component collects the batches for which a write was issued (including a
failing one). -/
def upsertLoop {α : Type} (call : Nat → Except Str Unit) :
    Nat → List α → Except Str Unit × List (List α)
  | _, [] => (.ok (), [])
  | b, v :: vs =>
      match call b with
      | .error e =>
          (.error (("failed to upsert batch: ").toList ++ e), [(v :: vs).take 100])
      | .ok _ =>
          let p := upsertLoop call (b + 1) ((v :: vs).drop 100)
          (p.1, (v :: vs).take 100 :: p.2)
termination_by _ vs => vs.length
decreasing_by simp; omega

/-- `UpsertVectors` from the Pinecone adapter: return nil immediately for an
empty input, otherwise run the batch loop from batch 0. -/
def UpsertVectors {α : Type} (call : Nat → Except Str Unit) (vectors : List α) :
    Except Str Unit × List (List α) :=
  if vectors.length = 0 then (.ok (), []) else upsertLoop call 0 vectors

def callFail1 : Nat → Except Str Unit :=
  fun i => if i = 1 then .error ('x' :: []) else .ok ()

def vecs250 : List Nat :=
  List.range 250

theorem chunkLoop_eq_strideStarts (text : Str) (chunkSize overlap : Nat)
    (hO : overlap < chunkSize) :
    ∀ fuel start, text.length - start < fuel →
      chunkLoop text chunkSize overlap fuel start =
        some ((strideStarts text.length (chunkSize - overlap) start).map
          (fun s => goSlice text s (min (s + chunkSize) text.length))) := by
  intro fuel
  induction fuel with
  | zero => intro start h; omega
  | succ n ih =>
      intro start h
      rw [chunkLoop, strideStarts]
      by_cases hs : start < text.length
      · have hrec := ih (start + (chunkSize - overlap)) (by omega)
        rw [hrec]
        have hcond : 0 < chunkSize - overlap ∧ start < text.length :=
          ⟨by omega, hs⟩
        rw [dif_pos hcond]
        simp [hs]
      · rw [dif_neg (by omega)]
        simp [hs]

theorem chunkText_eq_windows (text : Str) (chunkSize overlap : Nat)
    (hO : overlap < chunkSize) :
    chunkText text chunkSize overlap =
      some ((chunkWindows text.length chunkSize overlap).map
        (fun w => goSlice text w.1 w.2)) := by
  unfold chunkText chunkWindows
  by_cases hlen : text.length ≤ chunkSize
  · simp [hlen, goSlice]
  · rw [if_neg hlen, if_neg hlen,
      chunkLoop_eq_strideStarts text chunkSize overlap hO (text.length + 1) 0
        (by omega)]
    simp

/-- Closed form for `strideStarts`: an arithmetic progression of
`ceil((len - start) / stride)` terms. -/
theorem strideStarts_closed (stride : Nat) (hstride : 0 < stride) :
    ∀ len start, strideStarts len stride start =
      (List.range ((len - start + stride - 1) / stride)).map
        (fun i => start + i * stride) := by
  intro len
  have main : ∀ k start, len - start ≤ k →
      strideStarts len stride start =
        (List.range ((len - start + stride - 1) / stride)).map
          (fun i => start + i * stride) := by
    intro k
    induction k with
    | zero =>
        intro start hk
        rw [strideStarts]
        have hstart : ¬ (0 < stride ∧ start < len) := by omega
        rw [dif_neg hstart]
        have : (len - start + stride - 1) / stride = 0 := by
          apply Nat.div_eq_of_lt; omega
        rw [this]
        simp
    | succ n ih =>
        intro start hk
        rw [strideStarts]
        by_cases hs : start < len
        · rw [dif_pos ⟨hstride, hs⟩, ih (start + stride) (by omega)]
          have hcnt : (len - start + stride - 1) / stride =
              (len - (start + stride) + stride - 1) / stride + 1 := by
            by_cases hbig : start + stride < len
            · have h1 : len - start + stride - 1 =
                  (len - (start + stride) + stride - 1) + stride := by omega
              rw [h1, Nat.add_div_right _ hstride]
            · have h1 : len - (start + stride) = 0 := by omega
              rw [h1]
              have h2 : (0 + stride - 1) / stride = 0 := by
                apply Nat.div_eq_of_lt; omega
              rw [h2]
              apply Nat.div_eq_of_lt_le (by omega) (by omega)
          rw [hcnt, List.range_succ_eq_map]
          simp only [List.map_cons, List.map_map]
          congr 1
          · omega
          · apply List.map_congr_left
            intro i _
            simp only [Function.comp, Nat.succ_eq_add_one]
            ring
        · rw [dif_neg (by omega)]
          have : (len - start + stride - 1) / stride = 0 := by
            apply Nat.div_eq_of_lt; omega
          rw [this]
          simp
  exact fun start => main (len - start) start (le_refl _)

theorem chunkWindows_big (len chunkSize overlap : Nat) (hO : overlap < chunkSize)
    (hlen : chunkSize < len) :
    chunkWindows len chunkSize overlap =
      (List.range ((len + (chunkSize - overlap) - 1) / (chunkSize - overlap))).map
        (fun i => (i * (chunkSize - overlap),
          min (i * (chunkSize - overlap) + chunkSize) len)) := by
  unfold chunkWindows
  rw [if_neg (by omega), strideStarts_closed _ (by omega), List.map_map]
  apply List.map_congr_left
  intro i _
  simp [Function.comp]

theorem chunkText_count (text : Str) (chunkSize overlap : Nat)
    (hO : overlap < chunkSize) :
    (chunkText text chunkSize overlap).map List.length =
      some (if text.length ≤ chunkSize then 1
        else (text.length + (chunkSize - overlap) - 1) / (chunkSize - overlap)) := by
  rw [chunkText_eq_windows text chunkSize overlap hO]
  simp only [Option.map_some']
  congr 1
  rw [List.length_map]
  by_cases hlen : text.length ≤ chunkSize
  · simp [chunkWindows, hlen]
  · rw [chunkWindows_big text.length chunkSize overlap hO (by omega), if_neg hlen]
    simp

theorem chunkWindows_cover (len chunkSize overlap : Nat) (hO : overlap < chunkSize) :
    ∀ p, p < len → ∃ w ∈ chunkWindows len chunkSize overlap, w.1 ≤ p ∧ p < w.2 := by
  intro p hp
  by_cases hlen : len ≤ chunkSize
  · refine ⟨(0, len), ?_, by omega, hp⟩
    simp [chunkWindows, hlen]
  · rw [chunkWindows_big len chunkSize overlap hO (by omega)]
    have hstride : 0 < chunkSize - overlap := by omega
    refine ⟨(p / (chunkSize - overlap) * (chunkSize - overlap),
      min (p / (chunkSize - overlap) * (chunkSize - overlap) + chunkSize) len),
        ?_, ?_, ?_⟩
    · refine List.mem_map.mpr ⟨p / (chunkSize - overlap), List.mem_range.mpr ?_, rfl⟩
      have h1 : (len + (chunkSize - overlap) - 1) / (chunkSize - overlap) =
          (len - 1) / (chunkSize - overlap) + 1 := by
        have h2 : len + (chunkSize - overlap) - 1 = (len - 1) + (chunkSize - overlap) := by
          omega
        rw [h2, Nat.add_div_right _ hstride]
      rw [h1]
      have h3 : p / (chunkSize - overlap) ≤ (len - 1) / (chunkSize - overlap) :=
        Nat.div_le_div_right (by omega)
      omega
    · exact Nat.div_mul_le_self p (chunkSize - overlap)
    · have hdm := Nat.div_add_mod p (chunkSize - overlap)
      have hm : p % (chunkSize - overlap) < chunkSize - overlap :=
        Nat.mod_lt _ hstride
      have hmm : p / (chunkSize - overlap) * (chunkSize - overlap) +
          p % (chunkSize - overlap) = p := by
        rw [Nat.mul_comm] at hdm
        exact hdm
      generalize hT : p / (chunkSize - overlap) * (chunkSize - overlap) = T at *
      generalize hR : p % (chunkSize - overlap) = R at *
      omega

theorem chunkWindows_start_lt (len chunkSize overlap : Nat) (hO : overlap < chunkSize)
    (hlen : chunkSize < len) (j : Nat)
    (hj : j < (len + (chunkSize - overlap) - 1) / (chunkSize - overlap)) :
    j * (chunkSize - overlap) < len := by
  have hstride : 0 < chunkSize - overlap := by omega
  have h1 : (len + (chunkSize - overlap) - 1) / (chunkSize - overlap) =
      (len - 1) / (chunkSize - overlap) + 1 := by
    have h2 : len + (chunkSize - overlap) - 1 = (len - 1) + (chunkSize - overlap) := by
      omega
    rw [h2, Nat.add_div_right _ hstride]
  have hj2 : j ≤ (len - 1) / (chunkSize - overlap) := by omega
  have h3 : j * (chunkSize - overlap) ≤
      ((len - 1) / (chunkSize - overlap)) * (chunkSize - overlap) :=
    Nat.mul_le_mul_right _ hj2
  have h4 : ((len - 1) / (chunkSize - overlap)) * (chunkSize - overlap) ≤ len - 1 :=
    Nat.div_mul_le_self _ _
  omega

theorem chunkWindows_consecutive_overlap (len chunkSize overlap : Nat)
    (hO : overlap < chunkSize) :
    ∀ i, i + 1 < (chunkWindows len chunkSize overlap).length →
      windowOverlap ((chunkWindows len chunkSize overlap).getD i (0, 0))
          ((chunkWindows len chunkSize overlap).getD (i + 1) (0, 0)) =
        min overlap (len - ((chunkWindows len chunkSize overlap).getD (i + 1) (0, 0)).1) := by
  intro i hi
  by_cases hlen : len ≤ chunkSize
  · simp [chunkWindows, hlen] at hi
  · rw [chunkWindows_big len chunkSize overlap hO (by omega)] at hi ⊢
    rw [List.length_map, List.length_range] at hi
    have hg : ∀ j, j < (len + (chunkSize - overlap) - 1) / (chunkSize - overlap) →
        (((List.range ((len + (chunkSize - overlap) - 1) / (chunkSize - overlap))).map
          (fun i => (i * (chunkSize - overlap),
            min (i * (chunkSize - overlap) + chunkSize) len))).getD j (0, 0)) =
          (j * (chunkSize - overlap), min (j * (chunkSize - overlap) + chunkSize) len) := by
      intro j hj
      rw [List.getD_eq_getElem _ _ (by simpa using hj), List.getElem_map,
        List.getElem_range]
    rw [hg i (by omega), hg (i + 1) (by omega)]
    have hnext : (i + 1) * (chunkSize - overlap) < len :=
      chunkWindows_start_lt len chunkSize overlap hO (by omega) (i + 1) hi
    have hsucc : (i + 1) * (chunkSize - overlap) =
        i * (chunkSize - overlap) + (chunkSize - overlap) := by ring
    unfold windowOverlap
    simp only
    generalize hA : i * (chunkSize - overlap) = A at *
    omega

/-- C1 (amended): for `0 <= overlap < chunkSize`, `chunkText` returns exactly
1 chunk when `len <= chunkSize` and exactly `ceil(len / (chunkSize - overlap))`
chunks when `len > chunkSize` (the loop runs while `start < len(text)` with
stride `chunkSize - overlap`, so the count is `ceil(L / stride)`, not
`ceil((L - overlap) / stride)`); in particular, for `L=2500, chunkSize=1000,
overlap=200` it returns 4 chunks covering `[0,1000)`, `[800,1800)`,
`[1600,2500)`, `[2400,2500)`. -/
theorem chunkText_count_and_example (text : Str) (chunkSize overlap : Nat)
    (hO : overlap < chunkSize) :
    (chunkText text chunkSize overlap).map List.length =
      some (if text.length ≤ chunkSize then 1
        else (text.length + (chunkSize - overlap) - 1) / (chunkSize - overlap)) ∧
    chunkWindows 2500 1000 200 = [(0, 1000), (800, 1800), (1600, 2500), (2400, 2500)] := by
  refine ⟨chunkText_count text chunkSize overlap hO, ?_⟩
  rw [chunkWindows_big 2500 1000 200 (by norm_num) (by norm_num)]
  decide

/-- C1 counterexample: on a text of length 2500 with `chunkSize = 1000` and
`overlap = 200`, `chunkText` does not return 3 chunks (it returns 4). -/
theorem chunkText_2500_not_three_chunks :
    (chunkText (List.replicate 2500 'a') 1000 200).map List.length ≠ some 3 := by
  rw [chunkText_count _ _ _ (by norm_num)]
  simp only [List.length_replicate]
  decide

theorem chunkText_count_and_example_witness :
    ((chunkText (['a', 'b', 'c']) 2 1).map List.length =
      some (if (['a', 'b', 'c'] : Str).length ≤ 2 then 1
        else ((['a', 'b', 'c'] : Str).length + (2 - 1) - 1) / (2 - 1)) ∧
    chunkWindows 2500 1000 200 = [(0, 1000), (800, 1800), (1600, 2500), (2400, 2500)]) :=
  chunkText_count_and_example ['a', 'b', 'c'] 2 1 (by decide)

/-- C2 (amended): for `0 <= overlap < chunkSize`: if `len(text) <= chunkSize`
then `chunkText` returns a single chunk equal to the whole text; otherwise the
chunks are exactly the slices of the windows in `chunkWindows`, every character
position lies in at least one window (no gaps), and each pair of consecutive
windows overlaps in `min overlap (len - nextStart)` characters — which equals
`overlap` whenever the earlier window is unclipped, but can be smaller for
pairs whose earlier window is clipped at the end of the text (e.g. the final
pair). -/
theorem chunkText_single_cover_overlap (text : Str) (chunkSize overlap : Nat)
    (hO : overlap < chunkSize) :
    (text.length ≤ chunkSize → chunkText text chunkSize overlap = some [text]) ∧
    chunkText text chunkSize overlap =
      some ((chunkWindows text.length chunkSize overlap).map
        (fun w => goSlice text w.1 w.2)) ∧
    (∀ p, p < text.length → ∃ w ∈ chunkWindows text.length chunkSize overlap,
      w.1 ≤ p ∧ p < w.2) ∧
    (∀ i, i + 1 < (chunkWindows text.length chunkSize overlap).length →
      windowOverlap ((chunkWindows text.length chunkSize overlap).getD i (0, 0))
          ((chunkWindows text.length chunkSize overlap).getD (i + 1) (0, 0)) =
        min overlap
          (text.length -
            ((chunkWindows text.length chunkSize overlap).getD (i + 1) (0, 0)).1)) := by
  refine ⟨?_, chunkText_eq_windows text chunkSize overlap hO,
    chunkWindows_cover text.length chunkSize overlap hO,
    chunkWindows_consecutive_overlap text.length chunkSize overlap hO⟩
  intro hlen
  unfold chunkText
  rw [if_pos hlen]

/-- C2 counterexample: for text `"abcde"`, `chunkSize = 4`, `overlap = 2`, the
chunks are `"abcd"`, `"cde"`, `"e"`, and the last two consecutive chunks
overlap in only 1 character, not `overlap = 2`. -/
theorem chunkText_overlap_not_exact :
    chunkText (['a', 'b', 'c', 'd', 'e']) 4 2 =
      some [['a', 'b', 'c', 'd'], ['c', 'd', 'e'], ['e']] ∧
    chunkWindows 5 4 2 = [(0, 4), (2, 5), (4, 5)] ∧
    windowOverlap ((chunkWindows 5 4 2).getD 1 (0, 0))
      ((chunkWindows 5 4 2).getD 2 (0, 0)) ≠ 2 := by
  have hw : chunkWindows 5 4 2 = [(0, 4), (2, 5), (4, 5)] := by
    rw [chunkWindows_big 5 4 2 (by norm_num) (by norm_num)]
    decide
  refine ⟨by decide, hw, ?_⟩
  rw [hw]
  decide

theorem chunkText_single_cover_overlap_witness :
    (((['a', 'b', 'c'] : Str).length ≤ 2 →
      chunkText ['a', 'b', 'c'] 2 1 = some [['a', 'b', 'c']]) ∧
    chunkText ['a', 'b', 'c'] 2 1 =
      some ((chunkWindows (['a', 'b', 'c'] : Str).length 2 1).map
        (fun w => goSlice ['a', 'b', 'c'] w.1 w.2)) ∧
    (∀ p, p < (['a', 'b', 'c'] : Str).length →
      ∃ w ∈ chunkWindows (['a', 'b', 'c'] : Str).length 2 1, w.1 ≤ p ∧ p < w.2) ∧
    (∀ i, i + 1 < (chunkWindows (['a', 'b', 'c'] : Str).length 2 1).length →
      windowOverlap ((chunkWindows (['a', 'b', 'c'] : Str).length 2 1).getD i (0, 0))
          ((chunkWindows (['a', 'b', 'c'] : Str).length 2 1).getD (i + 1) (0, 0)) =
        min 1
          ((['a', 'b', 'c'] : Str).length -
            ((chunkWindows (['a', 'b', 'c'] : Str).length 2 1).getD (i + 1) (0, 0)).1))) :=
  chunkText_single_cover_overlap ['a', 'b', 'c'] 2 1 (by decide)

theorem chunkText_isSome (text : Str) (chunkSize overlap : Nat)
    (hO : overlap < chunkSize) :
    (chunkText text chunkSize overlap).isSome = true := by
  rw [chunkText_eq_windows text chunkSize overlap hO]
  rfl

/-- C10: under the precondition `overlap < chunkSize` the `chunkText` loop
terminates on every input: the window start advances by the positive stride
`chunkSize - overlap` each iteration, so fuel `len(text) + 1` is never
exhausted. -/
theorem chunkText_terminates (text : Str) (chunkSize overlap : Nat)
    (hO : overlap < chunkSize) :
    (chunkText text chunkSize overlap).isSome = true :=
  chunkText_isSome text chunkSize overlap hO

theorem chunkText_terminates_witness :
    (chunkText (['a', 'b', 'c']) 2 1).isSome = true :=
  chunkText_terminates ['a', 'b', 'c'] 2 1 (by decide)

theorem countFile_sum (st : RunStats) (res : Option Str) :
    (countFile st res).processed + (countFile st res).skipped +
      (countFile st res).errored =
      st.processed + st.skipped + st.errored + 1 := by
  cases res with
  | none =>
      simp only [countFile]
      omega
  | some msg =>
      simp only [countFile]
      split <;> simp <;> omega

theorem foldl_countFile_sum (runFile : Str → Option Str) :
    ∀ (files : List Str) (st : RunStats),
      ((files.foldl (fun st f => countFile st (runFile f)) st).processed +
        (files.foldl (fun st f => countFile st (runFile f)) st).skipped +
        (files.foldl (fun st f => countFile st (runFile f)) st).errored) =
      st.processed + st.skipped + st.errored + files.length := by
  intro files
  induction files with
  | nil => simp
  | cons f fs ih =>
      intro st
      rw [List.foldl_cons, ih (countFile st (runFile f))]
      have := countFile_sum st (runFile f)
      simp only [List.length_cons]
      omega

/-- C3: `ProcessDirectory` returns an error exactly when the initial scan
failed; on a successful scan it folds every discovered file into the run
counters — each file contributes to exactly one of processed/skipped/errored —
and returns nil regardless of the per-file outcomes. -/
theorem ProcessDirectory_isolation (scanRes : List Str × Option Str)
    (runFile : Str → Option Str) :
    (∀ e, scanRes.2 = some e →
      ProcessDirectory scanRes runFile =
        .error (("failed to scan directory: ").toList ++ e)) ∧
    (scanRes.2 = none →
      ProcessDirectory scanRes runFile = .ok (runCounters scanRes.1 runFile) ∧
      (runCounters scanRes.1 runFile).processed + (runCounters scanRes.1 runFile).skipped +
        (runCounters scanRes.1 runFile).errored = scanRes.1.length) := by
  constructor
  · intro e he
    unfold ProcessDirectory
    rw [he]
  · intro hnone
    refine ⟨?_, ?_⟩
    · unfold ProcessDirectory
      rw [hnone]
    · unfold runCounters
      rw [foldl_countFile_sum runFile scanRes.1 ⟨0, 0, 0⟩]
      simp

theorem ProcessDirectory_isolation_witness :
    ProcessDirectory ((('a' :: []) :: ('b' :: []) :: [], none)) (fun _ => some ('x' :: [])) =
      .ok (runCounters (('a' :: []) :: ('b' :: []) :: []) (fun _ => some ('x' :: []))) ∧
    (runCounters (('a' :: []) :: ('b' :: []) :: []) (fun _ => some ('x' :: []))).processed +
      (runCounters (('a' :: []) :: ('b' :: []) :: []) (fun _ => some ('x' :: []))).skipped +
      (runCounters (('a' :: []) :: ('b' :: []) :: []) (fun _ => some ('x' :: []))).errored = 2 :=
  (ProcessDirectory_isolation (('a' :: []) :: ('b' :: []) :: [], none)
    (fun _ => some ('x' :: []))).2 rfl

/-- C5: with the skip-existing flag enabled and a positive existence check,
`processFile` returns the `"file already indexed"` error right after the hash
and dedup check — no extraction, vision, summarization, chunking, embedding or
storage call is made and nothing is upserted — and the `ProcessDirectory`
accounting classifies this error message (substring match on
`"already indexed"`) as a skip, not an error. -/
theorem processFile_skip_already_indexed (cfg : Cfg) (env : FileEnv) (h : Str)
    (hskip : cfg.skipExisting = true) (hhash : env.hashRes = .ok h)
    (hex : env.existsRes = .ok true) :
    processFile cfg env =
      some ⟨some ("file already indexed").toList,
        [Call.hash, Call.checkExists], []⟩ ∧
    strContains ("file already indexed").toList (("already indexed").toList) = true ∧
    (∀ st, countFile st (some ("file already indexed").toList) =
      { st with skipped := st.skipped + 1 }) := by
  refine ⟨?_, by decide, ?_⟩
  · unfold processFile
    rw [hhash, hskip, hex]
    simp
  · intro st
    simp [countFile]
    decide

theorem processFile_skip_already_indexed_witness :
    processFile cfgSkip envSkip =
      some ⟨some ("file already indexed").toList,
        [Call.hash, Call.checkExists], []⟩ ∧
    strContains ("file already indexed").toList (("already indexed").toList) = true ∧
    (∀ st, countFile st (some ("file already indexed").toList) =
      { st with skipped := st.skipped + 1 }) :=
  processFile_skip_already_indexed cfgSkip envSkip [] rfl rfl rfl

/-- C6: a failing existence check is never surfaced: inside the Pinecone
adapter, `CheckDocumentExists` swallows a query error and reports
`(false, nil)`; and even if the check surfaced an error, `processFile` only
logs a warning and behaves exactly as if the document did not exist —
identical result, trace and stored vectors. -/
theorem existsCheckFailure_proceeds (cfg : Cfg) (env : FileEnv) (e : Str)
    (hex : env.existsRes = .error e) :
    CheckDocumentExists (α := Unit) (.error e) = .ok false ∧
    processFile cfg env = processFile cfg { env with existsRes := .ok false } := by
  refine ⟨rfl, ?_⟩
  unfold processFile
  cases henv : env.hashRes with
  | error e' => rfl
  | ok hsh =>
      cases hskip : cfg.skipExisting with
      | false => rfl
      | true =>
          rw [hex]
          rfl

theorem existsCheckFailure_proceeds_witness :
    CheckDocumentExists (α := Unit) (.error ('t' :: [])) = .ok false ∧
    processFile cfgSkip envExErr =
      processFile cfgSkip { envExErr with existsRes := .ok false } :=
  existsCheckFailure_proceeds cfgSkip envExErr ('t' :: []) rfl

theorem buildVectors_spec (embedRes : Nat → Except Str Emb) :
    ∀ n, (buildVectors embedRes n).map Prod.fst =
      (List.range n).filter (fun i => exceptOk (embedRes i)) := by
  intro n
  induction n with
  | zero => rfl
  | succ m ih =>
      unfold buildVectors at ih ⊢
      rw [List.range_succ, List.foldl_append, List.filter_append]
      simp only [List.foldl_cons, List.foldl_nil]
      cases hm : embedRes m with
      | error e => simp [ih, hm, exceptOk]
      | ok v => simp [ih, hm, exceptOk]

theorem buildVectors_nil_iff (embedRes : Nat → Except Str Emb) (n : Nat) :
    buildVectors embedRes n = [] ↔
      (List.range n).filter (fun i => exceptOk (embedRes i)) = [] := by
  rw [← buildVectors_spec embedRes n]
  constructor
  · intro hv
    rw [hv]
    rfl
  · intro hm
    exact List.map_eq_nil_iff.mp hm

theorem upsert_not_mem_pipelineTrace (env : FileEnv) (t : List Call) (n : Nat)
    (h : Call.upsert ∉ t) :
    Call.upsert ∉
      t ++ [Call.extract] ++ visionTrace env ++ [Call.summarize] ++
        (List.range n).map Call.embed := by
  intro hmem
  simp only [List.mem_append, List.mem_map, List.mem_singleton] at hmem
  rcases hmem with (((h1 | h2) | h3) | h4) | h5
  · exact h h1
  · exact Call.noConfusion h2
  · unfold visionTrace at h3
    split at h3 <;> simp at h3
  · exact Call.noConfusion h4
  · obtain ⟨i, _, hi⟩ := h5
    exact Call.noConfusion hi

theorem processAfterDedup_embed (cfg : Cfg) (env : FileEnv) (content : Str)
    (t : List Call) (chunks : List Str)
    (hext : env.extractRes = .ok content) (hne : content ≠ [])
    (hup : env.upsertRes = .ok ())
    (hchunks : chunkText (combineContent content (visualOf env))
      cfg.chunkSize cfg.overlap = some chunks)
    (hupMem : Call.upsert ∉ t) :
    ∃ r, processAfterDedup cfg env t = some r ∧
      r.stored.map Prod.fst =
        (List.range chunks.length).filter (fun i => exceptOk (env.embedRes i)) ∧
      r.err = none ∧
      ((List.range chunks.length).filter (fun i => exceptOk (env.embedRes i)) = [] →
        Call.upsert ∉ r.trace) ∧
      ((List.range chunks.length).filter (fun i => exceptOk (env.embedRes i)) ≠ [] →
        Call.upsert ∈ r.trace) := by
  simp only [processAfterDedup, hext, if_neg hne, hchunks]
  by_cases hv : buildVectors env.embedRes chunks.length = []
  · rw [if_pos hv]
    refine ⟨_, rfl, ?_, rfl, ?_, ?_⟩
    · simpa using ((buildVectors_nil_iff env.embedRes chunks.length).mp hv).symm
    · intro _
      exact upsert_not_mem_pipelineTrace env t chunks.length hupMem
    · intro hfil
      exact absurd ((buildVectors_nil_iff env.embedRes chunks.length).mp hv) hfil
  · rw [if_neg hv]
    simp only [hup]
    refine ⟨_, rfl, ?_, rfl, ?_, ?_⟩
    · exact buildVectors_spec env.embedRes chunks.length
    · intro hfil
      exact absurd ((buildVectors_nil_iff env.embedRes chunks.length).mpr hfil) hv
    · intro _
      simp

/-- C7: when the file reaches the embedding stage, a failing embedding call
drops exactly that chunk: the vector set handed to the store is precisely the
chunks whose embedding call succeeded, in order; if every embedding call
fails, no upsert is issued and `processFile` still returns nil (the file is
counted as processed); if at least one succeeds, the upsert is issued with
the surviving vectors. -/
theorem processFile_embedding_isolation (cfg : Cfg) (env : FileEnv)
    (h content em : Str)
    (hhash : env.hashRes = .ok h)
    (hdedup : cfg.skipExisting = false ∨ env.existsRes = .ok false ∨
      env.existsRes = .error em)
    (hext : env.extractRes = .ok content) (hne : content ≠ [])
    (hO : cfg.overlap < cfg.chunkSize)
    (hup : env.upsertRes = .ok ()) :
    ∃ chunks r,
      chunkText (combineContent content (visualOf env)) cfg.chunkSize cfg.overlap =
        some chunks ∧
      processFile cfg env = some r ∧
      r.stored.map Prod.fst =
        (List.range chunks.length).filter (fun i => exceptOk (env.embedRes i)) ∧
      r.err = none ∧
      ((List.range chunks.length).filter (fun i => exceptOk (env.embedRes i)) = [] →
        Call.upsert ∉ r.trace) ∧
      ((List.range chunks.length).filter (fun i => exceptOk (env.embedRes i)) ≠ [] →
        Call.upsert ∈ r.trace) := by
  have hsome := chunkText_isSome (combineContent content (visualOf env))
    cfg.chunkSize cfg.overlap hO
  obtain ⟨chunks, hchunks⟩ := Option.isSome_iff_exists.mp hsome
  have hred : ∃ t, processFile cfg env = processAfterDedup cfg env t ∧
      Call.upsert ∉ t := by
    unfold processFile
    rw [hhash]
    rcases hdedup with hd | hd | hd
    · refine ⟨[Call.hash], ?_, by decide⟩
      rw [hd]
      simp
    · by_cases hsk : cfg.skipExisting
      · refine ⟨[Call.hash, Call.checkExists], ?_, by decide⟩
        rw [hd]
        simp [hsk]
      · refine ⟨[Call.hash], ?_, by decide⟩
        simp [hsk]
    · by_cases hsk : cfg.skipExisting
      · refine ⟨[Call.hash, Call.checkExists], ?_, by decide⟩
        rw [hd]
        simp [hsk]
      · refine ⟨[Call.hash], ?_, by decide⟩
        simp [hsk]
  obtain ⟨t, hpf, ht⟩ := hred
  obtain ⟨r, hr, h1, h2, h3, h4⟩ :=
    processAfterDedup_embed cfg env content t chunks hext hne hup hchunks ht
  exact ⟨chunks, r, hchunks, hpf.trans hr, h1, h2, h3, h4⟩

theorem processFile_embedding_isolation_witness :
    ∃ chunks r,
      chunkText (combineContent ('a' :: 'b' :: 'c' :: []) (visualOf envEmb))
        cfgEmb.chunkSize cfgEmb.overlap = some chunks ∧
      processFile cfgEmb envEmb = some r ∧
      r.stored.map Prod.fst =
        (List.range chunks.length).filter (fun i => exceptOk (envEmb.embedRes i)) ∧
      r.err = none ∧
      ((List.range chunks.length).filter (fun i => exceptOk (envEmb.embedRes i)) = [] →
        Call.upsert ∉ r.trace) ∧
      ((List.range chunks.length).filter (fun i => exceptOk (envEmb.embedRes i)) ≠ [] →
        Call.upsert ∈ r.trace) :=
  processFile_embedding_isolation cfgEmb envEmb [] ('a' :: 'b' :: 'c' :: []) []
    rfl (Or.inl rfl) rfl (by decide) (by decide) rfl

mutual
theorem walkNode_spec (t : FsNode) (acc : List Str) :
    ((walkNode t acc).2 = none ↔ hasUnreadableN t = false) ∧
    (∀ n ∈ (walkNode t acc).1, n ∈ acc ∨ n ∈ fileNamesN t) := by
  cases t with
  | file name =>
      refine ⟨by simp [walkNode, hasUnreadableN], ?_⟩
      intro n hn
      simp only [walkNode] at hn
      by_cases hd : startsWithDot name
      · rw [if_pos hd] at hn
        exact Or.inl hn
      · rw [if_neg hd] at hn
        rcases List.mem_append.mp hn with h1 | h1
        · exact Or.inl h1
        · right
          simp only [fileNamesN, if_neg hd]
          simpa using h1
  | unreadable name msg =>
      refine ⟨by simp [walkNode, hasUnreadableN], ?_⟩
      intro n hn
      exact Or.inl hn
  | dir name cs =>
      have hl := walkList_spec cs acc
      exact ⟨by simpa [walkNode, hasUnreadableN] using hl.1,
        by simpa [walkNode, fileNamesN] using hl.2⟩

theorem walkList_spec (ts : List FsNode) (acc : List Str) :
    ((walkList ts acc).2 = none ↔ hasUnreadableL ts = false) ∧
    (∀ n ∈ (walkList ts acc).1, n ∈ acc ∨ n ∈ fileNamesL ts) := by
  cases ts with
  | nil =>
      refine ⟨by simp [walkList, hasUnreadableL], ?_⟩
      intro n hn
      exact Or.inl (by simpa [walkList] using hn)
  | cons c cs =>
      have hc := walkNode_spec c acc
      rcases hw : walkNode c acc with ⟨acc1, e⟩
      rw [hw] at hc
      cases e with
      | none =>
          have hcs := walkList_spec cs acc1
          have hw2 : walkList (c :: cs) acc = walkList cs acc1 := by
            rw [walkList, hw]
          rw [hw2]
          constructor
          · rw [hcs.1]
            have hcN : hasUnreadableN c = false := hc.1.mp rfl
            simp [hasUnreadableL, hcN]
          · intro n hn
            rcases hcs.2 n hn with h1 | h1
            · rcases hc.2 n h1 with h2 | h2
              · exact Or.inl h2
              · right
                simp only [fileNamesL, List.mem_append]
                exact Or.inl h2
            · right
              simp only [fileNamesL, List.mem_append]
              exact Or.inr h1
      | some err =>
          have hw2 : walkList (c :: cs) acc = (acc1, some err) := by
            rw [walkList, hw]
          rw [hw2]
          constructor
          · have hcN : hasUnreadableN c = true := by
              cases hb : hasUnreadableN c with
              | false => exact absurd (hc.1.mpr hb) (by simp)
              | true => rfl
            simp [hasUnreadableL, hcN]
          · intro n hn
            rcases hc.2 n hn with h2 | h2
            · exact Or.inl h2
            · right
              simp only [fileNamesL, List.mem_append]
              exact Or.inl h2
end

mutual
theorem fileNamesN_not_hidden (t : FsNode) :
    ∀ n ∈ fileNamesN t, startsWithDot n = false := by
  cases t with
  | file name =>
      intro n hn
      by_cases hd : startsWithDot name
      · simp [fileNamesN, hd] at hn
      · simp only [fileNamesN, if_neg hd, List.mem_singleton] at hn
        rw [hn]
        simpa using hd
  | unreadable name msg =>
      intro n hn
      simp [fileNamesN] at hn
  | dir name cs => exact fileNamesL_not_hidden cs

theorem fileNamesL_not_hidden (ts : List FsNode) :
    ∀ n ∈ fileNamesL ts, startsWithDot n = false := by
  cases ts with
  | nil =>
      intro n hn
      simp [fileNamesL] at hn
  | cons c cs =>
      intro n hn
      rcases List.mem_append.mp (by simpa [fileNamesL] using hn) with h1 | h1
      · exact fileNamesN_not_hidden c n h1
      · exact fileNamesL_not_hidden cs n h1
end

/-- C4 (amended): `scanDirectory` returns only regular-file names, never a
directory, `unreadable` entry or dot-named entry; but it succeeds exactly when
the tree contains no unreadable entry — any unreadable sub-entry makes the
walk callback return its error, aborting the whole scan, not only an
unopenable root. -/
theorem scanDirectory_spec (root : FsNode) :
    (∀ n ∈ (scanDirectory root).1, n ∈ fileNamesN root) ∧
    (∀ n ∈ (scanDirectory root).1, startsWithDot n = false) ∧
    ((scanDirectory root).2 = none ↔ hasUnreadableN root = false) := by
  have h := walkNode_spec root []
  refine ⟨?_, ?_, h.1⟩
  · intro n hn
    rcases h.2 n hn with h1 | h1
    · simp at h1
    · exact h1
  · intro n hn
    rcases h.2 n hn with h1 | h1
    · simp at h1
    · exact fileNamesN_not_hidden root n h1

/-- C4 counterexample: a readable root directory containing an unreadable
entry and a regular file: the scan returns the sub-entry's error — the whole
run aborts even though the root was opened successfully, and the sibling
file is lost. -/
theorem scanDirectory_subentry_aborts :
    scanDirectory
        (FsNode.dir ('r' :: [])
          [FsNode.unreadable ('x' :: []) ('e' :: []), FsNode.file ('a' :: [])]) =
      ([], some ('e' :: [])) ∧
    hasUnreadableN
        (FsNode.dir ('r' :: [])
          [FsNode.unreadable ('x' :: []) ('e' :: []), FsNode.file ('a' :: [])]) = true := by
  constructor
  · simp [scanDirectory, walkNode, walkList]
  · simp [hasUnreadableN, hasUnreadableL]

theorem scanDirectory_spec_witness :
    (∀ n ∈ (scanDirectory (FsNode.dir ('r' :: []) [FsNode.file ('a' :: [])])).1,
      n ∈ fileNamesN (FsNode.dir ('r' :: []) [FsNode.file ('a' :: [])])) ∧
    (∀ n ∈ (scanDirectory (FsNode.dir ('r' :: []) [FsNode.file ('a' :: [])])).1,
      startsWithDot n = false) ∧
    ((scanDirectory (FsNode.dir ('r' :: []) [FsNode.file ('a' :: [])])).2 = none ↔
      hasUnreadableN (FsNode.dir ('r' :: []) [FsNode.file ('a' :: [])]) = false) :=
  scanDirectory_spec (FsNode.dir ('r' :: []) [FsNode.file ('a' :: [])])

theorem hexDigit_mem (m : Nat) (hm : m < 16) :
    hexDigit m ∈ ("0123456789abcdef").toList := by
  interval_cases m <;> decide

/-- C8: `calculateFileHash` returns `"sha256:"` followed by the lowercase hex
encoding of the digest of the file's full byte content; the result depends on
the byte content alone, so two paths whose reads yield identical bytes get
identical hashes; and (for byte-valued digest output) every character after
the tag is a lowercase hex digit. -/
theorem calculateFileHash_spec (digest : List Nat → List Nat)
    (readFile : Str → Except Str (List Nat)) (p q : Str) (bytes : List Nat)
    (hp : readFile p = .ok bytes) (hq : readFile q = .ok bytes) :
    calculateFileHash digest readFile p =
      .ok (("sha256:").toList ++ bytesHex (digest bytes)) ∧
    calculateFileHash digest readFile p = calculateFileHash digest readFile q ∧
    ((∀ b ∈ digest bytes, b < 256) →
      ∀ c ∈ bytesHex (digest bytes), c ∈ ("0123456789abcdef").toList) := by
  refine ⟨?_, ?_, ?_⟩
  · unfold calculateFileHash
    rw [hp]
  · unfold calculateFileHash
    rw [hp, hq]
  · intro hb c hc
    unfold bytesHex at hc
    rw [List.mem_flatten] at hc
    obtain ⟨s, hs, hcs⟩ := hc
    rw [List.mem_map] at hs
    obtain ⟨b, hbmem, hbs⟩ := hs
    have hblt := hb b hbmem
    rw [← hbs] at hcs
    simp only [List.mem_cons, List.not_mem_nil, or_false] at hcs
    rcases hcs with hcs | hcs
    · rw [hcs]
      exact hexDigit_mem (b / 16) (by omega)
    · rw [hcs]
      exact hexDigit_mem (b % 16) (Nat.mod_lt _ (by norm_num))

theorem calculateFileHash_spec_witness :
    calculateFileHash (fun _ => 227 :: 176 :: []) (fun _ => .ok (1 :: 2 :: []))
        ('p' :: []) =
      .ok (("sha256:").toList ++ bytesHex ((fun _ => 227 :: 176 :: []) (1 :: 2 :: []))) ∧
    calculateFileHash (fun _ => 227 :: 176 :: []) (fun _ => .ok (1 :: 2 :: []))
        ('p' :: []) =
      calculateFileHash (fun _ => 227 :: 176 :: []) (fun _ => .ok (1 :: 2 :: []))
        ('q' :: []) ∧
    ((∀ b ∈ (fun _ => 227 :: 176 :: []) ((1 : Nat) :: 2 :: []), b < 256) →
      ∀ c ∈ bytesHex ((fun _ => 227 :: 176 :: []) ((1 : Nat) :: 2 :: [])),
        c ∈ ("0123456789abcdef").toList) :=
  calculateFileHash_spec (fun _ => 227 :: 176 :: []) (fun _ => .ok (1 :: 2 :: []))
    ('p' :: []) ('q' :: []) (1 :: 2 :: []) rfl rfl

theorem batch_count_step (len : Nat) (hl : 1 ≤ len) :
    (len - 100 + 99) / 100 + 1 = (len + 99) / 100 := by
  by_cases hbig : 100 < len
  · have h1 : len + 99 = (len - 100 + 99) + 100 := by omega
    rw [h1, Nat.add_div_right _ (by norm_num)]
  · have h1 : len - 100 = 0 := by omega
    rw [h1]
    have h3 : (len + 99) / 100 = 1 :=
      Nat.div_eq_of_lt_le (by omega) (by omega)
    norm_num [h3]

theorem upsertLoop_all_ok {α : Type} (call : Nat → Except Str Unit) :
    ∀ (n : Nat) (vs : List α) (b : Nat), vs.length ≤ n →
      (∀ j, j < (vs.length + 99) / 100 → call (b + j) = .ok ()) →
      upsertLoop call b vs = (.ok (), (upsertLoop call b vs).2) ∧
      (upsertLoop call b vs).2.flatten = vs ∧
      (upsertLoop call b vs).2.length = (vs.length + 99) / 100 := by
  intro n
  induction n with
  | zero =>
      intro vs b hlen _
      have hnil : vs = [] := List.length_eq_zero.mp (by omega)
      subst hnil
      have h0 : upsertLoop call b ([] : List α) = (.ok (), []) := by
        simp [upsertLoop]
      rw [h0]
      refine ⟨rfl, rfl, by norm_num⟩
  | succ m ih =>
      intro vs b hlen hok
      cases vs with
      | nil =>
          have h0 : upsertLoop call b ([] : List α) = (.ok (), []) := by
            simp [upsertLoop]
          rw [h0]
          refine ⟨rfl, rfl, by norm_num⟩
      | cons v vs' =>
          have hlen1 : (v :: vs').length = vs'.length + 1 := by simp
          have hpos : 0 < ((v :: vs').length + 99) / 100 :=
            Nat.div_pos (by rw [hlen1]; omega) (by norm_num)
          have hc0 : call b = .ok () := by
            have h := hok 0 hpos
            simpa using h
          have hdlen : ((v :: vs').drop 100).length = vs'.length + 1 - 100 := by
            simp
          have harith := batch_count_step (vs'.length + 1) (by omega)
          have hrec := ih ((v :: vs').drop 100) (b + 1)
            (by rw [hdlen]; omega)
            (by
              intro j hj
              rw [hdlen] at hj
              have hj2 : j + 1 < ((v :: vs').length + 99) / 100 := by
                rw [hlen1, ← harith]
                omega
              have h2 := hok (j + 1) hj2
              have hidx : b + (j + 1) = b + 1 + j := by omega
              rw [hidx] at h2
              exact h2)
          obtain ⟨hres, hflat, hlen2⟩ := hrec
          have hfst : (upsertLoop call (b + 1) ((v :: vs').drop 100)).1 = .ok () := by
            rw [hres]
          have hstep : upsertLoop call b (v :: vs') =
              ((upsertLoop call (b + 1) ((v :: vs').drop 100)).1,
                (v :: vs').take 100 ::
                  (upsertLoop call (b + 1) ((v :: vs').drop 100)).2) := by
            simp [upsertLoop, hc0]
          rw [hstep]
          refine ⟨?_, ?_, ?_⟩
          · rw [hfst]
          · simp only [List.flatten_cons]
            rw [hflat, List.take_append_drop]
          · simp only [List.length_cons]
            rw [hlen2, hdlen]
            exact harith

theorem upsertLoop_first_error {α : Type} (call : Nat → Except Str Unit) (e : Str) :
    ∀ (j : Nat) (vs : List α) (b : Nat),
      100 * j < vs.length →
      call (b + j) = .error e →
      (∀ i, i < j → call (b + i) = .ok ()) →
      (upsertLoop call b vs).1 =
        .error (("failed to upsert batch: ").toList ++ e) ∧
      (upsertLoop call b vs).2.length = j + 1 ∧
      (upsertLoop call b vs).2.flatten = vs.take (100 * j + 100) := by
  intro j
  induction j with
  | zero =>
      intro vs b hrange herr hok
      cases vs with
      | nil => simp at hrange
      | cons v vs' =>
          have h0 : call b = .error e := by simpa using herr
          have hstep : upsertLoop call b (v :: vs') =
              (.error (("failed to upsert batch: ").toList ++ e),
                [(v :: vs').take 100]) := by
            simp [upsertLoop, h0]
          rw [hstep]
          refine ⟨rfl, rfl, by simp⟩
  | succ m ih =>
      intro vs b hrange herr hok
      cases vs with
      | nil => simp at hrange
      | cons v vs' =>
          have hc0 : call b = .ok () := by
            have h := hok 0 (by omega)
            simpa using h
          have hdlen : ((v :: vs').drop 100).length = vs'.length + 1 - 100 := by
            simp
          have hrec := ih ((v :: vs').drop 100) (b + 1)
            (by rw [hdlen]; simp only [List.length_cons] at hrange; omega)
            (by
              have hidx : b + (m + 1) = b + 1 + m := by omega
              rw [hidx] at herr
              exact herr)
            (by
              intro i hi
              have h2 := hok (i + 1) (by omega)
              have hidx : b + (i + 1) = b + 1 + i := by omega
              rw [hidx] at h2
              exact h2)
          obtain ⟨hres, hlen2, hflat⟩ := hrec
          have hstep : upsertLoop call b (v :: vs') =
              ((upsertLoop call (b + 1) ((v :: vs').drop 100)).1,
                (v :: vs').take 100 ::
                  (upsertLoop call (b + 1) ((v :: vs').drop 100)).2) := by
            simp [upsertLoop, hc0]
          rw [hstep]
          refine ⟨hres, by simp only [List.length_cons]; rw [hlen2], ?_⟩
          simp only [List.flatten_cons]
          rw [hflat]
          have htake : (v :: vs').take (100 * (m + 1) + 100) =
              (v :: vs').take 100 ++ ((v :: vs').drop 100).take (100 * m + 100) := by
            have hn : 100 * (m + 1) + 100 = 100 + (100 * m + 100) := by ring
            rw [hn, List.take_add]
          rw [htake]

theorem upsertLoop_batch_sizes {α : Type} (call : Nat → Except Str Unit) :
    ∀ (n : Nat) (vs : List α) (b : Nat), vs.length ≤ n →
      ∀ bt ∈ (upsertLoop call b vs).2, 0 < bt.length ∧ bt.length ≤ 100 := by
  intro n
  induction n with
  | zero =>
      intro vs b hlen bt hbt
      have hnil : vs = [] := List.length_eq_zero.mp (by omega)
      subst hnil
      have h0 : upsertLoop call b ([] : List α) = (.ok (), []) := by
        simp [upsertLoop]
      rw [h0] at hbt
      simp at hbt
  | succ m ih =>
      intro vs b hlen bt hbt
      cases vs with
      | nil =>
          have h0 : upsertLoop call b ([] : List α) = (.ok (), []) := by
            simp [upsertLoop]
          rw [h0] at hbt
          simp at hbt
      | cons v vs' =>
          have htk : 0 < ((v :: vs').take 100).length ∧
              ((v :: vs').take 100).length ≤ 100 := by
            simp
          cases hc : call b with
          | error e =>
              have hstep : upsertLoop call b (v :: vs') =
                  (.error (("failed to upsert batch: ").toList ++ e),
                    [(v :: vs').take 100]) := by
                simp [upsertLoop, hc]
              rw [hstep] at hbt
              simp only [List.mem_singleton] at hbt
              rw [hbt]
              exact htk
          | ok u =>
              have hstep : upsertLoop call b (v :: vs') =
                  ((upsertLoop call (b + 1) ((v :: vs').drop 100)).1,
                    (v :: vs').take 100 ::
                      (upsertLoop call (b + 1) ((v :: vs').drop 100)).2) := by
                simp [upsertLoop, hc]
              rw [hstep] at hbt
              rcases List.mem_cons.mp hbt with h1 | h1
              · rw [h1]
                exact htk
              · have hd : ((v :: vs').drop 100).length ≤ m := by
                  simp only [List.length_drop, List.length_cons]
                  simp only [List.length_cons] at hlen
                  omega
                exact ih ((v :: vs').drop 100) (b + 1) hd bt h1

/-- C9: `UpsertVectors` partitions a non-empty input into consecutive
order-preserving batches of at most 100 vectors and issues exactly one write
per batch — `ceil(n/100)` writes when all succeed, zero writes for an empty
input; on the first failing batch write it returns the wrapped error
immediately: exactly the earlier batches plus the failing one were issued
(their concatenation is the corresponding prefix of the input), leaving the
document possibly partially indexed. -/
theorem UpsertVectors_batching {α : Type} (call : Nat → Except Str Unit)
    (vectors : List α) :
    (vectors = [] → UpsertVectors call vectors = (.ok (), [])) ∧
    (∀ bt ∈ (UpsertVectors call vectors).2, 0 < bt.length ∧ bt.length ≤ 100) ∧
    ((∀ j, j < (vectors.length + 99) / 100 → call j = .ok ()) →
      (UpsertVectors call vectors).1 = .ok () ∧
      (UpsertVectors call vectors).2.flatten = vectors ∧
      (UpsertVectors call vectors).2.length = (vectors.length + 99) / 100) ∧
    (∀ j e, 100 * j < vectors.length → call j = .error e →
      (∀ i, i < j → call i = .ok ()) →
      (UpsertVectors call vectors).1 =
        .error (("failed to upsert batch: ").toList ++ e) ∧
      (UpsertVectors call vectors).2.length = j + 1 ∧
      (UpsertVectors call vectors).2.flatten = vectors.take (100 * j + 100)) := by
  by_cases hv : vectors.length = 0
  · have hnil : vectors = [] := List.length_eq_zero.mp hv
    subst hnil
    have h0 : UpsertVectors call ([] : List α) = (.ok (), []) := by
      simp [UpsertVectors]
    refine ⟨fun _ => h0, ?_, ?_, ?_⟩
    · intro bt hbt
      rw [h0] at hbt
      simp at hbt
    · intro _
      rw [h0]
      refine ⟨rfl, rfl, by norm_num⟩
    · intro j e hrange _
      simp at hrange
  · have hne : UpsertVectors call vectors = upsertLoop call 0 vectors := by
      simp [UpsertVectors, hv]
    refine ⟨fun hnil => absurd (by simp [hnil] : vectors.length = 0) hv, ?_, ?_, ?_⟩
    · intro bt hbt
      rw [hne] at hbt
      exact upsertLoop_batch_sizes call vectors.length vectors 0 (le_refl _) bt hbt
    · intro hok
      have h := upsertLoop_all_ok call vectors.length vectors 0 (le_refl _)
        (by intro j hj; simpa using hok j hj)
      rw [hne]
      obtain ⟨h1, h2, h3⟩ := h
      exact ⟨by rw [h1], h2, h3⟩
    · intro j e hrange herr hok
      have h := upsertLoop_first_error call e j vectors 0 hrange
        (by simpa using herr) (by intro i hi; simpa using hok i hi)
      rw [hne]
      exact h

theorem UpsertVectors_batching_witness :
    (vecs250 = [] → UpsertVectors callFail1 vecs250 = (.ok (), [])) ∧
    (∀ bt ∈ (UpsertVectors callFail1 vecs250).2, 0 < bt.length ∧ bt.length ≤ 100) ∧
    ((∀ j, j < (vecs250.length + 99) / 100 → callFail1 j = .ok ()) →
      (UpsertVectors callFail1 vecs250).1 = .ok () ∧
      (UpsertVectors callFail1 vecs250).2.flatten = vecs250 ∧
      (UpsertVectors callFail1 vecs250).2.length = (vecs250.length + 99) / 100) ∧
    (∀ j e, 100 * j < vecs250.length → callFail1 j = .error e →
      (∀ i, i < j → callFail1 i = .ok ()) →
      (UpsertVectors callFail1 vecs250).1 =
        .error (("failed to upsert batch: ").toList ++ e) ∧
      (UpsertVectors callFail1 vecs250).2.length = j + 1 ∧
      (UpsertVectors callFail1 vecs250).2.flatten = vecs250.take (100 * j + 100)) :=
  UpsertVectors_batching callFail1 vecs250
